import Mathlib

/-!
Shallow embedding of the affiliation classification and aggregation core of
the PharmaCrawler repository (`pubmed_pharma_fetcher/core/affiliation_parser.py`
and `pubmed_pharma_fetcher/core/data_processor.py`), together with proofs
settling the specification claims about it.

Strings are modelled as `List Char`.  Python's `str.lower`, `str.strip`,
substring membership (`in`), and the three concrete regular expressions used
by the source (`re.findall` with backtracking semantics) are embedded
explicitly below.  Python `set` iteration used by the source only ever feeds
existential checks or is followed by de-duplication, so sets are modelled as
lists; where the source iterates a set union we use list concatenation and
note that the source's iteration order is unspecified.
-/

abbrev Str := List Char

/-- ASCII whitespace, the characters matched by Python's `\s` and stripped by
`str.strip` for ASCII input. -/
def isSpaceChar (c : Char) : Bool :=
  c == ' ' || c == '\t' || c == '\n' || c == '\r' || c == '\x0b' || c == '\x0c'

/-- Python `str.lower` on one ASCII character. -/
def lowerChar (c : Char) : Char :=
  if 'A' ≤ c ∧ c ≤ 'Z' then Char.ofNat (c.toNat + 32) else c

/-- Python `str.lower` (ASCII). -/
def lowerStr (s : Str) : Str := s.map lowerChar

/-- Python `str.lstrip()`. -/
def lstrip (s : Str) : Str := s.dropWhile isSpaceChar

/-- Python `str.rstrip()`. -/
def rstrip (s : Str) : Str := (s.reverse.dropWhile isSpaceChar).reverse

/-- Python `str.strip()`. -/
def pyStrip (s : Str) : Str := rstrip (lstrip s)

/-- Boolean list-prefix test (`needle` begins `hay`). -/
def isPrefixOfB : Str → Str → Bool
  | [], _ => true
  | _ :: _, [] => false
  | a :: as, b :: bs => a == b && isPrefixOfB as bs

/-- Python's substring containment `needle in hay` for strings. -/
def containsSub (needle : Str) : Str → Bool
  | [] => isPrefixOfB needle []
  | hay@(_ :: t) => isPrefixOfB needle hay || containsSub needle t

/-- The company registry loaded from `companies.json`
(`_load_companies_config`): four lists of names / keywords. -/
structure CompaniesData where
  pharmaceutical_companies : List Str
  biotech_companies : List Str
  company_keywords : List Str
  academic_keywords : List Str

/-- The built-in fallback registry from `_load_companies_config`, used when
the configuration file is missing. -/
def fallbackConfig : CompaniesData where
  pharmaceutical_companies :=
    ["Pfizer".toList, "Novartis".toList, "Roche".toList, "Merck".toList]
  biotech_companies :=
    ["Genentech".toList, "Amgen".toList, "Biogen".toList, "Moderna".toList]
  company_keywords :=
    ["Pharmaceuticals".toList, "Pharma".toList, "Inc.".toList,
     "Ltd.".toList, "Corp.".toList]
  academic_keywords :=
    ["University".toList, "College".toList, "Institute".toList,
     "Hospital".toList]

/-- Modelled from the spec: the repository's `companies.json` configuration
file is not present under `src/`; §3 and §8 (scenario C) of the design
describe a registry whose `companyKeywords` include generic corporate suffix
tokens such as "Inc.", "Pharma" and — per scenario C — "Biotech".  This
registry extends the built-in fallback lists with that keyword. -/
def specRegistry : CompaniesData where
  pharmaceutical_companies := fallbackConfig.pharmaceutical_companies
  biotech_companies := fallbackConfig.biotech_companies
  company_keywords := fallbackConfig.company_keywords ++ ["Biotech".toList]
  academic_keywords := fallbackConfig.academic_keywords

/-- The union `self.pharma_companies.union(self.biotech_companies)` used by
the source; Python set iteration order is unspecified, modelled as
concatenation order. -/
def allCompanies (cfg : CompaniesData) : List Str :=
  cfg.pharmaceutical_companies ++ cfg.biotech_companies

/-- Embeds `_contains_pharma_biotech_company`: some known company name occurs as a
case-insensitive substring of the affiliation. -/
def contains_pharma_biotech_company (cfg : CompaniesData) (affiliation : Str) : Bool :=
  (allCompanies cfg).any fun c => containsSub (lowerStr c) (lowerStr affiliation)

/-! ### The email-domain regular expression

`_has_corporate_email_domain` runs
`re.findall(r'@([a-zA-Z0-9.-]+\.[a-zA-Z]{2,})', affiliation.lower())`.
The matcher below reproduces the backtracking semantics: after a literal `@`
the greedy character-class body takes the longest length such that a literal
`.` followed by at least two letters (greedy) completes the match. -/

def isAsciiAlphaB (c : Char) : Bool :=
  ('a' ≤ c && c ≤ 'z') || ('A' ≤ c && c ≤ 'Z')

/-- Character class `[a-zA-Z0-9.-]`. -/
def inEmailClass (c : Char) : Bool :=
  isAsciiAlphaB c || ('0' ≤ c && c ≤ '9') || c == '.' || c == '-'

/-- Greedy search for the body length of the email-domain pattern: try body
lengths from `j` downward; at each, require a literal `.` then at least two
letters.  Returns `(capture, remainder-of-input)`. -/
def emailBody (rest : Str) : Nat → Option (Str × Str)
  | 0 => none
  | j + 1 =>
    match rest.drop (j + 1) with
    | '.' :: r2 =>
      let t := r2.takeWhile isAsciiAlphaB
      if 2 ≤ t.length then
        some (rest.take (j + 1) ++ '.' :: t, r2.drop t.length)
      else emailBody rest j
    | _ => emailBody rest j

/-- Try to match `@([a-zA-Z0-9.-]+\.[a-zA-Z]{2,})` anchored at the start of
`s`; on success returns the capture group and the rest of the input after
the whole match. -/
def tryEmail (s : Str) : Option (Str × Str) :=
  match s with
  | [] => none
  | c :: rest =>
    if c = '@' then
      emailBody rest (rest.takeWhile inEmailClass).length
    else none

/-- Embeds `re.findall` scanning: try a match at every position left to right,
skipping one character on failure and continuing after the whole match on
success.  `fuel` bounds the recursion; every successful `tryAt` consumes at
least one character, so `s.length + 1` fuel is always enough. -/
def scanFuel (tryAt : Str → Option (Str × Str)) : Nat → Str → List Str
  | 0, _ => []
  | _, [] => []
  | fuel + 1, s@(_ :: t) =>
    match tryAt s with
    | some (cap, rest) => cap :: scanFuel tryAt fuel rest
    | none => scanFuel tryAt fuel t

/-- Runs `re.findall pattern s` for the three patterns embedded here. -/
def findall (tryAt : Str → Option (Str × Str)) (s : Str) : List Str :=
  scanFuel tryAt (s.length + 1) s

/-- The email domains extracted by `_has_corporate_email_domain` from the
lowered affiliation. -/
def emailDomains (affiliation : Str) : List Str :=
  findall tryEmail (lowerStr affiliation)

/-- Embeds `academic_domains = {'.edu', '.ac.', '.edu.', '.org'}` (set membership
only feeds an existential check, modelled as a list). -/
def academicDomainMarkers : List Str :=
  [".edu".toList, ".ac.".toList, ".edu.".toList, ".org".toList]

/-- Embeds the commercial marker list `['.com', '.net', '.biz', '.co.']`. -/
def corpDomainMarkers : List Str :=
  [".com".toList, ".net".toList, ".biz".toList, ".co.".toList]

/-- Embeds `_has_corporate_email_domain`: some extracted domain contains no
academic marker and contains a commercial marker. -/
def has_corporate_email_domain (affiliation : Str) : Bool :=
  (emailDomains affiliation).any fun d =>
    !(academicDomainMarkers.any fun a => containsSub a d) &&
      (corpDomainMarkers.any fun c => containsSub c d)

/-- Embeds `is_non_academic_affiliation`: the rule cascade of the classifier.
Source loops over keyword sets returning early; each loop is an existential
check, insensitive to set iteration order. -/
def is_non_academic_affiliation (cfg : CompaniesData) (affiliation : Str) : Bool :=
  if affiliation = [] then false
  else
    let al := lowerStr affiliation
    if cfg.academic_keywords.any (fun k => containsSub (lowerStr k) al) then false
    else if contains_pharma_biotech_company cfg affiliation then true
    else if cfg.company_keywords.any (fun k => containsSub (lowerStr k) al) then true
    else if has_corporate_email_domain affiliation then true
    else false

/-! ### The company-name extraction regular expressions

`_extract_company_patterns` runs two `re.findall` patterns:
pattern 1 `([A-Z][a-zA-Z\s&]+)(?:Inc\.|Ltd\.|Corp\.|Corporation|Company|Pharmaceuticals|Pharma|Biotech)`
with a greedy body, and pattern 2
`([A-Z][a-zA-Z\s]+?)(?:Pharmaceuticals|Pharma|Biotech|Biotechnology)` with a
lazy body.  Backtracking semantics: the body length is maximised (pattern 1)
or minimised (pattern 2) subject to one of the suffix alternatives, tried in
the listed order, matching right after the body. -/

def isUpperAZ (c : Char) : Bool := 'A' ≤ c && c ≤ 'Z'

/-- Character class of pattern 1's body: letters, whitespace, ampersand. -/
def inClass1 (c : Char) : Bool := isAsciiAlphaB c || isSpaceChar c || c == '&'

/-- Character class of pattern 2's body: letters and whitespace. -/
def inClass2 (c : Char) : Bool := isAsciiAlphaB c || isSpaceChar c

/-- Suffix alternatives of pattern 1, in the pattern's order. -/
def suffixes1 : List Str :=
  ["Inc.".toList, "Ltd.".toList, "Corp.".toList, "Corporation".toList,
   "Company".toList, "Pharmaceuticals".toList, "Pharma".toList,
   "Biotech".toList]

/-- Suffix alternatives of pattern 2, in the pattern's order. -/
def suffixes2 : List Str :=
  ["Pharmaceuticals".toList, "Pharma".toList, "Biotech".toList,
   "Biotechnology".toList]

/-- First alternative (in order) matching at the head of `s`, with its
length. -/
def matchAlt (alts : List Str) (s : Str) : Option Nat :=
  alts.findSome? fun a => if isPrefixOfB a s then some a.length else none

/-- Greedy body search: body lengths from `j` down to 1; returns the body
length and the matched alternative's length. -/
def greedyBody (alts : List Str) (rest : Str) : Nat → Option (Nat × Nat)
  | 0 => none
  | j + 1 =>
    match matchAlt alts (rest.drop (j + 1)) with
    | some len => some (j + 1, len)
    | none => greedyBody alts rest j

/-- Lazy body search: body lengths from `j` upward, `fuel` more lengths to
try. -/
def lazyBody (alts : List Str) (rest : Str) : Nat → Nat → Option (Nat × Nat)
  | _, 0 => none
  | j, fuel + 1 =>
    match matchAlt alts (rest.drop j) with
    | some len => some (j, len)
    | none => lazyBody alts rest (j + 1) fuel

/-- Pattern 1 anchored at the start of `s`: capture group and rest of input
after the whole match. -/
def tryPattern1 (s : Str) : Option (Str × Str) :=
  match s with
  | [] => none
  | c :: rest =>
    if isUpperAZ c then
      match greedyBody suffixes1 rest (rest.takeWhile inClass1).length with
      | some (j, len) => some (c :: rest.take j, rest.drop (j + len))
      | none => none
    else none

/-- Pattern 2 anchored at the start of `s`. -/
def tryPattern2 (s : Str) : Option (Str × Str) :=
  match s with
  | [] => none
  | c :: rest =>
    if isUpperAZ c then
      match lazyBody suffixes2 rest 1 (rest.takeWhile inClass2).length with
      | some (j, len) => some (c :: rest.take j, rest.drop (j + len))
      | none => none
    else none

/-- The first clean-up substitution: remove a leading "The"/"At"/"From"
(case-insensitive, alternatives in order) that is followed by at least one
whitespace character, together with all that whitespace. -/
def dropLeadingWord (words : List Str) (c : Str) : Str :=
  match words with
  | [] => c
  | w :: ws =>
    if lowerStr (c.take w.length) = w ∧ (c.drop w.length).takeWhile isSpaceChar ≠ [] then
      (c.drop w.length).dropWhile isSpaceChar
    else dropLeadingWord ws c

/-- Does whitespace-then-word (case-insensitive, one of `words`) match
exactly the whole of `s`?  The words start with letters, so the greedy
whitespace run is forced to take all leading whitespace. -/
def tailWordMatch (words : List Str) (s : Str) : Bool :=
  match s with
  | [] => false
  | c :: _ =>
    isSpaceChar c && words.any fun w => lowerStr (s.dropWhile isSpaceChar) == w

/-- Index of the leftmost position from which whitespace-then-word matches
to the end of the string, if any. -/
def tailWordIdx (words : List Str) : Str → Option Nat
  | [] => none
  | s@(_ :: t) =>
    if tailWordMatch words s then some 0
    else (tailWordIdx words t).map (· + 1)

/-- The second clean-up substitution: remove the leftmost whitespace-plus-
"Department"/"Division"/"Unit" suffix reaching the end of the string. -/
def dropTrailingWord (words : List Str) (c : Str) : Str :=
  match tailWordIdx words c with
  | some i => c.take i
  | none => c

def leadingWords : List Str := ["the".toList, "at".toList, "from".toList]

def trailingWords : List Str :=
  ["department".toList, "division".toList, "unit".toList]

/-- The clean-up applied to each captured candidate in
`_extract_company_patterns`. -/
def cleanCompany (c : Str) : Str :=
  dropTrailingWord trailingWords (dropLeadingWord leadingWords c)

/-- Embeds `_extract_company_patterns`: both pattern passes, each capture stripped,
then cleaned, kept (stripped) when its stripped length exceeds 2. -/
def extract_company_patterns (affiliation : Str) : List Str :=
  let matches1 := (findall tryPattern1 affiliation).map pyStrip
  let matches2 := (findall tryPattern2 affiliation).map pyStrip
  (matches1 ++ matches2).filterMap fun c0 =>
    let c := cleanCompany c0
    if 2 < (pyStrip c).length then some (pyStrip c) else none

/-- The case-insensitive order-preserving de-duplication loop at the end of
`extract_company_names` (`seen` holds lowered strings already emitted). -/
def dedupCIAux (seen : List Str) : List Str → List Str
  | [] => []
  | c :: rest =>
    if lowerStr c ∈ seen then dedupCIAux seen rest
    else c :: dedupCIAux (lowerStr c :: seen) rest

def dedupCI (l : List Str) : List Str := dedupCIAux [] l

/-- Embeds `extract_company_names`: known-name pass (registry names occurring
case-insensitively in the affiliation, emitted in registry casing) followed
by the pattern pass, then case-insensitive de-duplication. -/
def extract_company_names (cfg : CompaniesData) (affiliation : Str) : List Str :=
  if affiliation = [] then []
  else
    let known := (allCompanies cfg).filter fun c =>
      containsSub (lowerStr c) (lowerStr affiliation)
    dedupCI (known ++ extract_company_patterns affiliation)

/-! ### Author grouping (`get_non_academic_authors_info`) and the data
processor (`data_processor.py`). -/

/-- The `Author` dataclass of `pubmed_client.py`.  `email` is
`Optional[str]`. -/
structure Author where
  first_name : Str
  last_name : Str
  affiliation : Str
  email : Option Str
  is_corresponding : Bool

/-- The `Paper` dataclass of `pubmed_client.py`. -/
structure Paper where
  pubmed_id : Str
  title : Str
  publication_date : Str
  authors : List Author
  abstract : Option Str

/-- Computes `f"{author.first_name} {author.last_name}".strip()`. -/
def authorName (a : Author) : Str :=
  pyStrip (a.first_name ++ ' ' :: a.last_name)

/-- The exact-equality order-preserving de-duplication
`list(dict.fromkeys(...))` used at the end of
`get_non_academic_authors_info` (`dict` keys compare by string equality,
case-sensitively). -/
def dedupExactAux (seen : List Str) : List Str → List Str
  | [] => []
  | c :: rest =>
    if c ∈ seen then dedupExactAux seen rest
    else c :: dedupExactAux (c :: seen) rest

def dedupExact (l : List Str) : List Str := dedupExactAux [] l

/-- The accumulation loop of `get_non_academic_authors_info`: per author in
order, if the affiliation classifies as non-academic, append the author's
display name (unless it strips to empty) and the extracted company names. -/
def gatherNonAcademic (cfg : CompaniesData) : List Author → List Str × List Str
  | [] => ([], [])
  | a :: rest =>
    let acc := gatherNonAcademic cfg rest
    if is_non_academic_affiliation cfg a.affiliation then
      (let n := authorName a
       (if n ≠ [] then n :: acc.1 else acc.1),
       extract_company_names cfg a.affiliation ++ acc.2)
    else acc

/-- Embeds `get_non_academic_authors_info`: the accumulation loop followed by
`list(dict.fromkeys(...))` on both lists. -/
def get_non_academic_authors_info (cfg : CompaniesData) (authors : List Author) :
    List Str × List Str :=
  let acc := gatherNonAcademic cfg authors
  (dedupExact acc.1, dedupExact acc.2)

/-- Python truthiness of `author.email` (an `Optional[str]`): `None` and
`""` are falsy. -/
def emailTruthy : Option Str → Bool
  | none => false
  | some s => !s.isEmpty

/-- First pass of `_extract_corresponding_email`: first author marked
corresponding with a truthy email. -/
def correspondingPass : List Author → Option Str
  | [] => none
  | a :: rest =>
    if a.is_corresponding && emailTruthy a.email then a.email
    else correspondingPass rest

/-- Second pass: first author with a truthy email. -/
def anyEmailPass : List Author → Option Str
  | [] => none
  | a :: rest => if emailTruthy a.email then a.email else anyEmailPass rest

/-- Embeds `_extract_corresponding_email`. -/
def extract_corresponding_email (authors : List Author) : Option Str :=
  match correspondingPass authors with
  | some e => some e
  | none => anyEmailPass authors

/-- One output row of `process_papers`: a Python dict with six keys,
inserted in this order: `PubmedID`, `Title`, `Publication Date`,
`Non-academic Author(s)`, `Company Affiliation(s)`,
`Corresponding Author Email`.  The structure fields carry the values in the
same fixed order. -/
structure ProcessedPaper where
  pubmedID : Str
  title : Str
  publicationDate : Str
  nonAcademicAuthors : Str
  companyAffiliations : Str
  correspondingAuthorEmail : Str
deriving DecidableEq

/-- Embeds `'; '.join(l)`. -/
def joinSemi (l : List Str) : Str := List.intercalate ("; ".toList) l

/-- Python `x or d` for an optional string `x`: `None` and `""` give `d`. -/
def pythonOr (x : Option Str) (d : Str) : Str :=
  match x with
  | none => d
  | some s => if s = [] then d else s

/-- Embeds `process_papers`: the per-paper loop of `data_processor.py`, skipping
papers whose non-academic author list is empty and otherwise emitting one
row. -/
def process_papers (cfg : CompaniesData) : List Paper → List ProcessedPaper
  | [] => []
  | p :: rest =>
    let info := get_non_academic_authors_info cfg p.authors
    if info.1 = [] then process_papers cfg rest
    else
      { pubmedID := p.pubmed_id
        title := p.title
        publicationDate := p.publication_date
        nonAcademicAuthors := joinSemi info.1
        companyAffiliations := joinSemi info.2
        correspondingAuthorEmail :=
          pythonOr (extract_corresponding_email p.authors) ("Not available".toList) }
        :: process_papers cfg rest

/-- The per-paper aggregation step (`AggregatePaper` of the specification):
`none` when the paper has no non-academic authors, otherwise the single row
the paper contributes.  `process_papers` is proved equal to `filterMap` of
this function. -/
def aggregatePaper (cfg : CompaniesData) (p : Paper) : Option ProcessedPaper :=
  let info := get_non_academic_authors_info cfg p.authors
  if info.1 = [] then none
  else some
    { pubmedID := p.pubmed_id
      title := p.title
      publicationDate := p.publication_date
      nonAcademicAuthors := joinSemi info.1
      companyAffiliations := joinSemi info.2
      correspondingAuthorEmail :=
        pythonOr (extract_corresponding_email p.authors) ("Not available".toList) }

/-- The three academic-style domain markers named by the specification
(`.edu`, `.ac.`, `.org`); the source's fourth marker `.edu.` is redundant,
which is proved below. -/
def claimAcademicMarkers : List Str :=
  [".edu".toList, ".ac.".toList, ".org".toList]

/-! ### Concrete fixtures used by counterexamples and witnesses -/

def authorCase1 : Author :=
  { first_name := "A".toList, last_name := "B".toList,
    affiliation := "APple Pharma".toList, email := none, is_corresponding := false }

def authorCase2 : Author :=
  { first_name := "C".toList, last_name := "D".toList,
    affiliation := "Apple Pharma".toList, email := none, is_corresponding := false }

def authorPfizer1 : Author :=
  { first_name := "E".toList, last_name := "F".toList,
    affiliation := "Pfizer, New York".toList, email := none, is_corresponding := false }

def authorPfizer2 : Author :=
  { first_name := "G".toList, last_name := "H".toList,
    affiliation := "pfizer, Basel".toList, email := none, is_corresponding := false }

def authorStanford : Author :=
  { first_name := "Jane".toList, last_name := "Doe".toList,
    affiliation := "Department of Medicine, Stanford University".toList,
    email := none, is_corresponding := false }

def paperAcademicOnly : Paper :=
  { pubmed_id := "1".toList, title := "T1".toList,
    publication_date := "2024-01-01".toList, authors := [authorStanford],
    abstract := none }

def authorUnnamed : Author :=
  { first_name := " ".toList, last_name := "".toList,
    affiliation := "Pfizer, NY".toList, email := none, is_corresponding := false }

def paperUnnamed : Paper :=
  { pubmed_id := "2".toList, title := "T2".toList,
    publication_date := "2024-02-02".toList, authors := [authorUnnamed],
    abstract := none }

/-! ### Helper lemmas -/

theorem isPrefixOfB_of_append (n m l : Str) (h : isPrefixOfB (n ++ m) l = true) :
    isPrefixOfB n l = true := by
  induction n generalizing l with
  | nil => rfl
  | cons a as ih =>
    cases l with
    | nil => simp [isPrefixOfB] at h
    | cons b bs =>
      simp only [List.cons_append, isPrefixOfB, Bool.and_eq_true] at h ⊢
      exact ⟨h.1, ih bs h.2⟩

theorem containsSub_of_append (n m hay : Str) (hc : containsSub (n ++ m) hay = true) :
    containsSub n hay = true := by
  induction hay with
  | nil =>
    simp only [containsSub] at hc ⊢
    exact isPrefixOfB_of_append n m [] hc
  | cons c t ih =>
    simp only [containsSub, Bool.or_eq_true] at hc ⊢
    rcases hc with h1 | h2
    · exact Or.inl (isPrefixOfB_of_append n m _ h1)
    · exact Or.inr (ih h2)

theorem mem_of_isPrefixOfB (n l : Str) (h : isPrefixOfB n l = true) :
    ∀ c ∈ n, c ∈ l := by
  induction n generalizing l with
  | nil => intro c hc; cases hc
  | cons a as ih =>
    cases l with
    | nil => simp [isPrefixOfB] at h
    | cons b bs =>
      simp only [isPrefixOfB, Bool.and_eq_true, beq_iff_eq] at h
      intro c hc
      rcases List.mem_cons.mp hc with rfl | hc
      · exact h.1 ▸ List.mem_cons_self _ _
      · exact List.mem_cons_of_mem _ (ih bs h.2 c hc)

theorem mem_of_containsSub (n hay : Str) (h : containsSub n hay = true) :
    ∀ c ∈ n, c ∈ hay := by
  induction hay with
  | nil =>
    simp only [containsSub] at h
    exact mem_of_isPrefixOfB n [] h
  | cons c t ih =>
    simp only [containsSub, Bool.or_eq_true] at h
    rcases h with h1 | h2
    · exact mem_of_isPrefixOfB n _ h1
    · exact fun x hx => List.mem_cons_of_mem _ (ih h2 x hx)

theorem lowerChar_of_space (c : Char) (h : isSpaceChar c = true) : lowerChar c = c := by
  have h6 : c = ' ' ∨ c = '\t' ∨ c = '\n' ∨ c = '\r' ∨ c = '\x0b' ∨ c = '\x0c' := by
    simp only [isSpaceChar, Bool.or_eq_true, beq_iff_eq] at h
    tauto
  rcases h6 with rfl | rfl | rfl | rfl | rfl | rfl <;> rfl

theorem lowerStr_space (s : Str) (h : ∀ c ∈ s, isSpaceChar c = true) :
    ∀ c ∈ lowerStr s, isSpaceChar c = true := by
  intro c hc
  obtain ⟨x, hx, rfl⟩ := List.mem_map.mp hc
  rw [lowerChar_of_space x (h x hx)]
  exact h x hx

/-- Scanning the email pattern over a string with no `@` finds nothing. -/
theorem scanFuel_email_nil (fuel : Nat) (s : Str) (h : ∀ c ∈ s, c ≠ '@') :
    scanFuel tryEmail fuel s = [] := by
  induction fuel generalizing s with
  | zero => cases s <;> rfl
  | succ n ih =>
    cases s with
    | nil => rfl
    | cons c t =>
      have hc : c ≠ '@' := h c (List.mem_cons_self _ _)
      simp only [scanFuel, tryEmail, if_neg hc]
      exact ih t fun x hx => h x (List.mem_cons_of_mem _ hx)

/-- Properties of `dedupCIAux` output: a sublist of the input, each element's lowering
avoids `seen`, and all loweringss are pairwise distinct. -/
theorem dedupCIAux_sublist (seen : List Str) (l : List Str) :
    List.Sublist (dedupCIAux seen l) l := by
  induction l generalizing seen with
  | nil => exact List.Sublist.refl _
  | cons c rest ih =>
    simp only [dedupCIAux]
    split
    · exact (ih seen).cons c
    · exact (ih (lowerStr c :: seen)).cons₂ c

theorem dedupCIAux_spec (l : List Str) (seen : List Str) :
    (∀ x ∈ dedupCIAux seen l, lowerStr x ∉ seen) ∧
      (dedupCIAux seen l).Pairwise (fun a b => lowerStr a ≠ lowerStr b) := by
  induction l generalizing seen with
  | nil => exact ⟨fun x hx => absurd hx (List.not_mem_nil x), List.Pairwise.nil⟩
  | cons c rest ih =>
    simp only [dedupCIAux]
    split
    · exact ih seen
    · rename_i hns
      obtain ⟨havoid, hpw⟩ := ih (lowerStr c :: seen)
      refine ⟨?_, ?_⟩
      · intro x hx
        rcases List.mem_cons.mp hx with rfl | hx
        · exact hns
        · exact fun hmem => (havoid x hx) (List.mem_cons_of_mem _ hmem)
      · refine List.Pairwise.cons ?_ hpw
        intro x hx heq
        exact (havoid x hx) (heq ▸ List.mem_cons_self _ _)

theorem dedupCI_pairwise (l : List Str) :
    (dedupCI l).Pairwise fun a b => lowerStr a ≠ lowerStr b :=
  (dedupCIAux_spec l []).2

theorem dedupCI_sublist (l : List Str) : List.Sublist (dedupCI l) l := dedupCIAux_sublist [] l

/-- Properties of `dedupExactAux` output: sublist, avoids `seen`, no duplicates, and
membership is exactly membership-in-input minus `seen`. -/
theorem dedupExactAux_sublist (seen : List Str) (l : List Str) :
    List.Sublist (dedupExactAux seen l) l := by
  induction l generalizing seen with
  | nil => exact List.Sublist.refl _
  | cons c rest ih =>
    simp only [dedupExactAux]
    split
    · exact (ih seen).cons c
    · exact (ih (c :: seen)).cons₂ c

theorem dedupExactAux_spec (l : List Str) (seen : List Str) :
    (∀ x, x ∈ dedupExactAux seen l ↔ x ∈ l ∧ x ∉ seen) ∧
      (dedupExactAux seen l).Nodup := by
  induction l generalizing seen with
  | nil =>
    refine ⟨fun x => ?_, List.Pairwise.nil⟩
    simp [dedupExactAux]
  | cons c rest ih =>
    simp only [dedupExactAux]
    split
    · rename_i hseen
      obtain ⟨hmem, hnd⟩ := ih seen
      refine ⟨fun x => ?_, hnd⟩
      rw [hmem x]
      constructor
      · exact fun h => ⟨List.mem_cons_of_mem _ h.1, h.2⟩
      · rintro ⟨hx, h2⟩
        rcases List.mem_cons.mp hx with rfl | h1
        · exact absurd hseen h2
        · exact ⟨h1, h2⟩
    · rename_i hns
      obtain ⟨hmem, hnd⟩ := ih (c :: seen)
      constructor
      · intro x
        constructor
        · intro hx
          rcases List.mem_cons.mp hx with rfl | hx2
          · exact ⟨List.mem_cons_self _ _, hns⟩
          · obtain ⟨h1, h2⟩ := (hmem x).mp hx2
            exact ⟨List.mem_cons_of_mem _ h1,
              fun hx3 => h2 (List.mem_cons_of_mem _ hx3)⟩
        · rintro ⟨hx, h2⟩
          rcases List.mem_cons.mp hx with rfl | h1
          · exact List.mem_cons_self _ _
          · by_cases hxc : x = c
            · exact hxc ▸ List.mem_cons_self _ _
            · refine List.mem_cons_of_mem _ ((hmem x).mpr ⟨h1, ?_⟩)
              intro hx3
              rcases List.mem_cons.mp hx3 with h4 | h4
              · exact hxc h4
              · exact h2 h4
      · refine List.Pairwise.cons ?_ hnd
        intro x hx heq
        apply ((hmem x).mp hx).2
        rw [← heq]
        exact List.mem_cons_self _ _

theorem dedupExact_nodup (l : List Str) : (dedupExact l).Nodup :=
  (dedupExactAux_spec l []).2

theorem dedupExact_sublist (l : List Str) : List.Sublist (dedupExact l) l :=
  dedupExactAux_sublist [] l

theorem mem_dedupExact (l : List Str) (x : Str) : x ∈ dedupExact l ↔ x ∈ l := by
  rw [dedupExact, (dedupExactAux_spec l []).1 x]
  simp

/-- Every pattern-pass extraction result is longer than two characters. -/
theorem extract_company_patterns_length (aff : Str) :
    ∀ x ∈ extract_company_patterns aff, 2 < x.length := by
  intro x hx
  simp only [extract_company_patterns, List.mem_filterMap] at hx
  obtain ⟨c0, _, h⟩ := hx
  by_cases hlen : 2 < (pyStrip (cleanCompany c0)).length
  · rw [if_pos hlen] at h
    cases h
    exact hlen
  · rw [if_neg hlen] at h
    cases h

theorem correspondingPass_eq (authors : List Author) :
    correspondingPass authors =
      (authors.find? fun a => a.is_corresponding && emailTruthy a.email).bind
        Author.email := by
  induction authors with
  | nil => rfl
  | cons a rest ih =>
    cases h : (a.is_corresponding && emailTruthy a.email) with
    | true => simp [correspondingPass, List.find?, h]
    | false => simp [correspondingPass, List.find?, h, ih]

theorem anyEmailPass_eq (authors : List Author) :
    anyEmailPass authors =
      (authors.find? fun a => emailTruthy a.email).bind Author.email := by
  induction authors with
  | nil => rfl
  | cons a rest ih =>
    cases h : emailTruthy a.email with
    | true => simp [anyEmailPass, List.find?, h]
    | false => simp [anyEmailPass, List.find?, h, ih]

theorem correspondingPass_ne_some_nil (authors : List Author) :
    correspondingPass authors ≠ some [] := by
  induction authors with
  | nil => simp [correspondingPass]
  | cons a rest ih =>
    simp only [correspondingPass]
    split
    · rename_i h
      intro he
      have h2 : emailTruthy a.email = true := by
        rw [Bool.and_eq_true] at h
        exact h.2
      rw [he] at h2
      simp [emailTruthy] at h2
    · exact ih

theorem anyEmailPass_ne_some_nil (authors : List Author) :
    anyEmailPass authors ≠ some [] := by
  induction authors with
  | nil => simp [anyEmailPass]
  | cons a rest ih =>
    simp only [anyEmailPass]
    split
    · rename_i h2
      intro he
      rw [he] at h2
      simp [emailTruthy] at h2
    · exact ih

theorem extract_corresponding_email_ne_some_nil (authors : List Author) :
    extract_corresponding_email authors ≠ some [] := by
  unfold extract_corresponding_email
  split
  · rename_i e h
    intro he
    exact correspondingPass_ne_some_nil authors (he ▸ h)
  · exact anyEmailPass_ne_some_nil authors

/-- The Python `or` fallback never hides a resolved email: since resolved
emails are truthy (non-empty), `x or 'Not available'` is exactly the
`Option`-case split. -/
theorem pythonOr_extract (authors : List Author) :
    pythonOr (extract_corresponding_email authors) ("Not available".toList) =
      (match extract_corresponding_email authors with
       | none => "Not available".toList
       | some e => e) := by
  cases h : extract_corresponding_email authors with
  | none => rfl
  | some e =>
    simp only [pythonOr]
    split
    · rename_i h2
      exact absurd (h2 ▸ h) (extract_corresponding_email_ne_some_nil authors)
    · rfl

theorem aggregatePaper_none (cfg : CompaniesData) (p : Paper)
    (h : (get_non_academic_authors_info cfg p.authors).1 = []) :
    aggregatePaper cfg p = none := by
  simp [aggregatePaper, h]

theorem process_papers_eq_filterMap (cfg : CompaniesData) (papers : List Paper) :
    process_papers cfg papers = papers.filterMap (aggregatePaper cfg) := by
  induction papers with
  | nil => rfl
  | cons p rest ih =>
    by_cases hc : (get_non_academic_authors_info cfg p.authors).1 = []
    · simp [process_papers, aggregatePaper, hc, ih, List.filterMap_cons]
    · simp [process_papers, aggregatePaper, hc, ih, List.filterMap_cons]

theorem process_papers_skip (cfg : CompaniesData) (p : Paper)
    (h : (get_non_academic_authors_info cfg p.authors).1 = [])
    (pre post : List Paper) :
    process_papers cfg (pre ++ p :: post) = process_papers cfg (pre ++ post) := by
  rw [process_papers_eq_filterMap, process_papers_eq_filterMap,
    List.filterMap_append, List.filterMap_append, List.filterMap_cons,
    aggregatePaper_none cfg p h]

theorem gather_names_nil (cfg : CompaniesData) (authors : List Author)
    (h : ∀ a ∈ authors,
      is_non_academic_affiliation cfg a.affiliation = true → authorName a = []) :
    (gatherNonAcademic cfg authors).1 = [] := by
  induction authors with
  | nil => rfl
  | cons a rest ih =>
    simp only [gatherNonAcademic]
    split
    · rename_i hna
      have hn : authorName a = [] := h a (List.mem_cons_self _ _) hna
      simp only [hn, ne_eq, not_true_eq_false, if_false]
      exact ih fun x hx hcl => h x (List.mem_cons_of_mem _ hx) hcl
    · exact ih fun x hx hcl => h x (List.mem_cons_of_mem _ hx) hcl

/-! ### Claim theorems -/

/-- C4: for every affiliation string containing any registered academic
keyword as a case-insensitive substring, `is_non_academic_affiliation`
returns `false`, regardless of any co-occurring company name, corporate
keyword, or commercial email domain in the same string. -/
theorem C4_academic_precedence (cfg : CompaniesData) (aff k : Str)
    (hk : k ∈ cfg.academic_keywords)
    (hsub : containsSub (lowerStr k) (lowerStr aff) = true) :
    is_non_academic_affiliation cfg aff = false := by
  unfold is_non_academic_affiliation
  by_cases h : aff = []
  · simp [h]
  · have hany :
        (cfg.academic_keywords.any fun kw => containsSub (lowerStr kw) (lowerStr aff))
          = true :=
      List.any_eq_true.mpr ⟨k, hk, hsub⟩
    simp [h, hany]

/-- Witness for C4: "Pfizer University" contains the academic keyword
"University" together with the company name "Pfizer", and classifies
academic. -/
theorem C4_witness :
    "University".toList ∈ fallbackConfig.academic_keywords ∧
    containsSub (lowerStr "University".toList) (lowerStr "Pfizer University".toList)
      = true ∧
    is_non_academic_affiliation fallbackConfig "Pfizer University".toList = false :=
  ⟨by decide, by decide,
    C4_academic_precedence fallbackConfig "Pfizer University".toList
      "University".toList (by decide) (by decide)⟩

/-- C9: an affiliation that is empty or consists only of whitespace
characters classifies as `false` (the registry hypothesis says every company
name and corporate keyword has a non-whitespace character, true of any real
registry and of the built-in fallback). -/
theorem C9_whitespace_false (cfg : CompaniesData) (aff : Str)
    (hws : ∀ c ∈ aff, isSpaceChar c = true)
    (hreg : ∀ s ∈ allCompanies cfg ++ cfg.company_keywords,
      ∃ ch ∈ lowerStr s, isSpaceChar ch = false) :
    is_non_academic_affiliation cfg aff = false := by
  by_cases h0 : aff = []
  · simp [is_non_academic_affiliation, h0]
  · have hlow : ∀ c ∈ lowerStr aff, isSpaceChar c = true := lowerStr_space aff hws
    have hnosub : ∀ s ∈ allCompanies cfg ++ cfg.company_keywords,
        containsSub (lowerStr s) (lowerStr aff) = false := by
      intro s hs
      rw [Bool.eq_false_iff]
      intro hcs
      obtain ⟨ch, hch, hns⟩ := hreg s hs
      have hsp := hlow ch (mem_of_containsSub _ _ hcs ch hch)
      rw [hsp] at hns
      cases hns
    have hcomp : contains_pharma_biotech_company cfg aff = false := by
      rw [Bool.eq_false_iff]
      intro htrue
      rw [contains_pharma_biotech_company, List.any_eq_true] at htrue
      obtain ⟨c, hc, hp⟩ := htrue
      have := hnosub c (List.mem_append_left _ hc)
      rw [this] at hp
      cases hp
    have hkw :
        (cfg.company_keywords.any fun k => containsSub (lowerStr k) (lowerStr aff))
          = false := by
      rw [Bool.eq_false_iff]
      intro htrue
      rw [List.any_eq_true] at htrue
      obtain ⟨c, hc, hp⟩ := htrue
      have := hnosub c (List.mem_append_right _ hc)
      rw [this] at hp
      cases hp
    have hemail : has_corporate_email_domain aff = false := by
      have hdom : emailDomains aff = [] := by
        rw [emailDomains, findall]
        apply scanFuel_email_nil
        intro c hc hceq
        have := hlow c hc
        rw [hceq] at this
        exact absurd this (by decide)
      rw [has_corporate_email_domain, hdom]
      rfl
    simp [is_non_academic_affiliation, h0, hcomp, hkw, hemail]

/-- Witness for C9: the two-space affiliation under the fallback registry. -/
theorem C9_witness :
    (∀ c ∈ "  ".toList, isSpaceChar c = true) ∧
    is_non_academic_affiliation fallbackConfig "  ".toList = false :=
  ⟨by decide,
    C9_whitespace_false fallbackConfig "  ".toList (by decide) (by decide)⟩

/-- C8: the corresponding-email resolution is the two-tier first-match
lookup — the first author in original order marked corresponding with a
non-empty email, else the first author with any non-empty email, else
nothing. -/
theorem C8_corresponding_email (authors : List Author) :
    extract_corresponding_email authors =
      match authors.find? fun a => a.is_corresponding && emailTruthy a.email with
      | some a => a.email
      | none =>
        match authors.find? fun a => emailTruthy a.email with
        | some a => a.email
        | none => none := by
  cases hf1 : authors.find? fun a => a.is_corresponding && emailTruthy a.email with
  | some a =>
    have hp := correspondingPass_eq authors
    rw [hf1] at hp
    have hpa := List.find?_some hf1
    have ht : emailTruthy a.email = true := by
      rw [Bool.and_eq_true] at hpa
      exact hpa.2
    cases he : a.email with
    | none =>
      rw [he] at ht
      simp [emailTruthy] at ht
    | some s =>
      have hp2 : correspondingPass authors = a.email := hp
      rw [he] at hp2
      unfold extract_corresponding_email
      rw [hp2]
      show some s = a.email
      rw [he]
  | none =>
    have hp := correspondingPass_eq authors
    rw [hf1] at hp
    have hp2 : correspondingPass authors = none := hp
    unfold extract_corresponding_email
    rw [hp2, anyEmailPass_eq]
    cases hf2 : authors.find? fun a => emailTruthy a.email with
    | some a => rfl
    | none => rfl

/-- C7: a paper whose author grouping yields no non-academic author names
aggregates to nothing and contributes zero rows, wherever it sits in the
input; the exclusion is a total-function skip, not an error. -/
theorem C7_empty_names_excluded (cfg : CompaniesData) (p : Paper)
    (pre post : List Paper)
    (h : (get_non_academic_authors_info cfg p.authors).1 = []) :
    aggregatePaper cfg p = none ∧
    process_papers cfg (pre ++ p :: post) = process_papers cfg (pre ++ post) :=
  ⟨aggregatePaper_none cfg p h, process_papers_skip cfg p h pre post⟩

/-- Witness for C7: a paper whose only author is university-affiliated is
silently dropped. -/
theorem C7_witness :
    (get_non_academic_authors_info fallbackConfig paperAcademicOnly.authors).1 = [] ∧
    aggregatePaper fallbackConfig paperAcademicOnly = none ∧
    process_papers fallbackConfig [paperAcademicOnly] = [] := by
  have h : (get_non_academic_authors_info fallbackConfig paperAcademicOnly.authors).1 = [] := by
    decide
  have h2 := C7_empty_names_excluded fallbackConfig paperAcademicOnly [] [] h
  exact ⟨h, h2.1, h2.2⟩

/-- C6: `process_papers` emits exactly one row per kept paper, in input
order (it is `filterMap` of the per-paper aggregation), and each row carries
the six fields in the fixed structure order — identifier, title, publication
date, names joined with "; ", companies joined with "; ", and the
corresponding email, which is the literal "Not available" exactly when no
email was resolved. -/
theorem C6_report_rows (cfg : CompaniesData) :
    (∀ papers : List Paper,
      process_papers cfg papers = papers.filterMap (aggregatePaper cfg)) ∧
    (∀ p : Paper, aggregatePaper cfg p =
      if (get_non_academic_authors_info cfg p.authors).1 = [] then none
      else some
        { pubmedID := p.pubmed_id
          title := p.title
          publicationDate := p.publication_date
          nonAcademicAuthors := joinSemi (get_non_academic_authors_info cfg p.authors).1
          companyAffiliations := joinSemi (get_non_academic_authors_info cfg p.authors).2
          correspondingAuthorEmail :=
            match extract_corresponding_email p.authors with
            | none => "Not available".toList
            | some e => e }) := by
  refine ⟨process_papers_eq_filterMap cfg, fun p => ?_⟩
  simp only [aggregatePaper, pythonOr_extract]

/-- C10: a paper whose every non-academic author has a blank display name is
excluded: the grouper's name list is empty (though its company list may not
be), so the aggregator drops the paper and its collected companies. -/
theorem C10_unnamed_authors_excluded (cfg : CompaniesData) (p : Paper)
    (pre post : List Paper)
    (hnames : ∀ a ∈ p.authors,
      is_non_academic_affiliation cfg a.affiliation = true → authorName a = []) :
    (get_non_academic_authors_info cfg p.authors).1 = [] ∧
    aggregatePaper cfg p = none ∧
    process_papers cfg (pre ++ p :: post) = process_papers cfg (pre ++ post) := by
  have h1 : (get_non_academic_authors_info cfg p.authors).1 = [] := by
    show dedupExact (gatherNonAcademic cfg p.authors).1 = []
    rw [gather_names_nil cfg p.authors hnames]
    rfl
  exact ⟨h1, aggregatePaper_none cfg p h1, process_papers_skip cfg p h1 pre post⟩

/-- Witness for C10: a whitespace-named author affiliated with "Pfizer, NY"
classifies non-academic and contributes a company, yet the paper is
dropped. -/
theorem C10_witness :
    ((get_non_academic_authors_info fallbackConfig paperUnnamed.authors).1 = [] ∧
     aggregatePaper fallbackConfig paperUnnamed = none ∧
     process_papers fallbackConfig [paperUnnamed] = []) ∧
    is_non_academic_affiliation fallbackConfig authorUnnamed.affiliation = true ∧
    (get_non_academic_authors_info fallbackConfig paperUnnamed.authors).2 =
      ["Pfizer".toList] := by
  have h := C10_unnamed_authors_excluded fallbackConfig paperUnnamed [] [] (by decide)
  exact ⟨⟨h.1, h.2.1, h.2.2⟩, by decide, by decide⟩

/-- The source's fourth academic marker `.edu.` is subsumed by `.edu`: the
four-marker check equals the specification's three-marker check on every
domain. -/
theorem markers_acad_eq (d : Str) :
    (academicDomainMarkers.any fun m => containsSub m d) =
      (claimAcademicMarkers.any fun m => containsSub m d) := by
  simp only [academicDomainMarkers, claimAcademicMarkers, List.any_cons,
    List.any_nil, Bool.or_false]
  cases h : containsSub (".edu.".toList) d with
  | false => simp
  | true =>
    have he : containsSub (".edu".toList) d = true := by
      apply containsSub_of_append (".edu".toList) (".".toList) d
      exact h
    rw [he]
    simp

/-- C5: when no earlier rule of the cascade fires, the classifier's value is
exactly the email-domain rule — some extracted domain contains none of
`.edu`, `.ac.`, `.org` and contains one of `.com`, `.net`, `.biz`, `.co.`;
in particular a domain matching neither family (such as `.io`) yields
`false`. -/
theorem C5_email_domain_rule (cfg : CompaniesData) (aff : Str)
    (h0 : aff ≠ [])
    (hacad : ∀ k ∈ cfg.academic_keywords,
      containsSub (lowerStr k) (lowerStr aff) = false)
    (hcomp : ∀ c ∈ allCompanies cfg,
      containsSub (lowerStr c) (lowerStr aff) = false)
    (hkw : ∀ k ∈ cfg.company_keywords,
      containsSub (lowerStr k) (lowerStr aff) = false) :
    is_non_academic_affiliation cfg aff =
      (emailDomains aff).any fun d =>
        (!claimAcademicMarkers.any fun m => containsSub m d) &&
          (corpDomainMarkers.any fun m => containsSub m d) := by
  have hacadB :
      (cfg.academic_keywords.any fun k => containsSub (lowerStr k) (lowerStr aff))
        = false := by
    rw [Bool.eq_false_iff]
    intro ht
    rw [List.any_eq_true] at ht
    obtain ⟨k, hk, hp⟩ := ht
    rw [hacad k hk] at hp
    cases hp
  have hcompB : contains_pharma_biotech_company cfg aff = false := by
    rw [Bool.eq_false_iff]
    intro ht
    rw [contains_pharma_biotech_company, List.any_eq_true] at ht
    obtain ⟨c, hc, hp⟩ := ht
    rw [hcomp c hc] at hp
    cases hp
  have hkwB :
      (cfg.company_keywords.any fun k => containsSub (lowerStr k) (lowerStr aff))
        = false := by
    rw [Bool.eq_false_iff]
    intro ht
    rw [List.any_eq_true] at ht
    obtain ⟨k, hk, hp⟩ := ht
    rw [hkw k hk] at hp
    cases hp
  have hchain : is_non_academic_affiliation cfg aff = has_corporate_email_domain aff := by
    simp [is_non_academic_affiliation, h0, hacadB, hcompB, hkwB]
  rw [hchain, has_corporate_email_domain]
  congr 1
  funext d
  rw [markers_acad_eq]

/-- Witness for C5: a `.com` email domain fires the rule; an `.io` domain
matches neither family and the affiliation classifies academic. -/
theorem C5_witness :
    is_non_academic_affiliation fallbackConfig "Acme Labs, bob@acme.com".toList
      = true ∧
    is_non_academic_affiliation fallbackConfig "Acme Labs, bob@acme.io".toList
      = false :=
  ⟨(C5_email_domain_rule fallbackConfig ("Acme Labs, bob@acme.com".toList)
      (by decide) (by decide) (by decide) (by decide)).trans (by decide),
   (C5_email_domain_rule fallbackConfig ("Acme Labs, bob@acme.io".toList)
      (by decide) (by decide) (by decide) (by decide)).trans (by decide)⟩

/-- C2: for the affiliation "XYZ Biotech, Cambridge MA", under any registry
with no academic keyword and no known company name matching the string and
with "Biotech" among the corporate keywords (as the specification's registry
has), the classifier answers `true` via that keyword, and extraction
returns exactly ["XYZ"] via the pattern pass. -/
theorem C2_scenario_c (cfg : CompaniesData)
    (hacad : ∀ k ∈ cfg.academic_keywords,
      containsSub (lowerStr k) (lowerStr "XYZ Biotech, Cambridge MA".toList) = false)
    (hcomp : ∀ c ∈ allCompanies cfg,
      containsSub (lowerStr c) (lowerStr "XYZ Biotech, Cambridge MA".toList) = false)
    (hbio : "Biotech".toList ∈ cfg.company_keywords) :
    is_non_academic_affiliation cfg "XYZ Biotech, Cambridge MA".toList = true ∧
    extract_company_names cfg "XYZ Biotech, Cambridge MA".toList = ["XYZ".toList] := by
  have hacadB : (cfg.academic_keywords.any fun k =>
      containsSub (lowerStr k) (lowerStr "XYZ Biotech, Cambridge MA".toList)) = false := by
    rw [Bool.eq_false_iff]
    intro ht
    rw [List.any_eq_true] at ht
    obtain ⟨k, hk, hp⟩ := ht
    rw [hacad k hk] at hp
    cases hp
  have hcompB :
      contains_pharma_biotech_company cfg "XYZ Biotech, Cambridge MA".toList = false := by
    rw [Bool.eq_false_iff]
    intro ht
    rw [contains_pharma_biotech_company, List.any_eq_true] at ht
    obtain ⟨c, hc, hp⟩ := ht
    rw [hcomp c hc] at hp
    cases hp
  have hkwB : (cfg.company_keywords.any fun k =>
      containsSub (lowerStr k) (lowerStr "XYZ Biotech, Cambridge MA".toList)) = true :=
    List.any_eq_true.mpr ⟨"Biotech".toList, hbio, by decide⟩
  constructor
  · rw [is_non_academic_affiliation,
      if_neg (by decide : ¬("XYZ Biotech, Cambridge MA".toList = []))]
    simp only [hacadB, hcompB, hkwB]
    simp
  · have hfil : ((allCompanies cfg).filter fun c =>
        containsSub (lowerStr c) (lowerStr "XYZ Biotech, Cambridge MA".toList)) = [] := by
      rw [List.filter_eq_nil_iff]
      intro c hc
      rw [hcomp c hc]
      decide
    have he : extract_company_names cfg "XYZ Biotech, Cambridge MA".toList =
        dedupCI (((allCompanies cfg).filter fun c =>
          containsSub (lowerStr c) (lowerStr "XYZ Biotech, Cambridge MA".toList)) ++
          extract_company_patterns "XYZ Biotech, Cambridge MA".toList) := by
      rw [extract_company_names,
        if_neg (by decide : ¬("XYZ Biotech, Cambridge MA".toList = []))]
    rw [he, hfil]
    decide

/-- Witness for C2: the spec-modelled registry satisfies the hypotheses. -/
theorem C2_witness :
    is_non_academic_affiliation specRegistry "XYZ Biotech, Cambridge MA".toList
      = true ∧
    extract_company_names specRegistry "XYZ Biotech, Cambridge MA".toList
      = ["XYZ".toList] :=
  C2_scenario_c specRegistry (by decide) (by decide) (by decide)

/-- C3: for every affiliation, `extract_company_names` (a total function —
it cannot fail) returns a list whose entries are pairwise distinct
case-insensitively, contains no empty string (given that registry company
names are non-empty, true of any real registry), and is a first-occurrence
subsequence of the two concatenated extraction passes; in particular an
affiliation with no matches in either pass yields the empty list. -/
theorem C3_extraction_contract (cfg : CompaniesData) (aff : Str)
    (hne : ∀ c ∈ allCompanies cfg, c ≠ []) :
    ((extract_company_names cfg aff).Pairwise fun a b => lowerStr a ≠ lowerStr b) ∧
    (∀ x ∈ extract_company_names cfg aff, x ≠ []) ∧
    List.Sublist (extract_company_names cfg aff)
      (((allCompanies cfg).filter fun c =>
          containsSub (lowerStr c) (lowerStr aff)) ++
        extract_company_patterns aff) := by
  by_cases h0 : aff = []
  · have he : extract_company_names cfg aff = [] := by
      rw [extract_company_names, if_pos h0]
    rw [he]
    exact ⟨List.Pairwise.nil, by simp, List.nil_sublist _⟩
  · have he : extract_company_names cfg aff =
        dedupCI (((allCompanies cfg).filter fun c =>
          containsSub (lowerStr c) (lowerStr aff)) ++
          extract_company_patterns aff) := by
      rw [extract_company_names, if_neg h0]
    refine ⟨?_, ?_, ?_⟩
    · rw [he]
      exact dedupCI_pairwise _
    · intro x hx
      rw [he] at hx
      have hx2 := (dedupCI_sublist _).subset hx
      rcases List.mem_append.mp hx2 with h1 | h2
      · exact hne x (List.mem_of_mem_filter h1)
      · have hl := extract_company_patterns_length aff x h2
        intro hxe
        rw [hxe] at hl
        simp at hl
    · rw [he]
      exact dedupCI_sublist _

/-- Witness for C3 at the affiliation "Pfizer Inc., NY" under the fallback
registry. -/
theorem C3_witness :
    ((extract_company_names fallbackConfig "Pfizer Inc., NY".toList).Pairwise
      fun a b => lowerStr a ≠ lowerStr b) ∧
    (∀ x ∈ extract_company_names fallbackConfig "Pfizer Inc., NY".toList, x ≠ []) ∧
    List.Sublist (extract_company_names fallbackConfig "Pfizer Inc., NY".toList)
      (((allCompanies fallbackConfig).filter fun c =>
          containsSub (lowerStr c) (lowerStr "Pfizer Inc., NY".toList)) ++
        extract_company_patterns "Pfizer Inc., NY".toList) :=
  C3_extraction_contract fallbackConfig "Pfizer Inc., NY".toList (by decide)

/-- C1 counterexample: the cross-author de-duplication of
`get_non_academic_authors_info` is case-sensitive (`dict.fromkeys`), so the
pattern-extracted companies "APple" and "Apple" from two authors both
survive, refuting case-insensitive de-duplication across the author set. -/
theorem C1_counterexample :
    (get_non_academic_authors_info fallbackConfig [authorCase1, authorCase2]).2 =
      ["APple".toList, "Apple".toList] ∧
    ¬ ((get_non_academic_authors_info fallbackConfig [authorCase1, authorCase2]).2.Pairwise
        fun a b => lowerStr a ≠ lowerStr b) := by
  constructor
  · decide
  · decide

/-- C1 amended: both output sequences of `get_non_academic_authors_info`
are de-duplicated by exact string equality, preserving first occurrence
across the whole author set (no exact duplicate survives, order and
membership of the gathered lists are preserved); the "Pfizer"/"pfizer"
example nevertheless yields exactly one entry, because known-name matches
are emitted in the registry's canonical casing. -/
theorem C1_amended_dedup :
    (∀ (cfg : CompaniesData) (authors : List Author),
      (get_non_academic_authors_info cfg authors).1.Nodup ∧
      (get_non_academic_authors_info cfg authors).2.Nodup ∧
      List.Sublist (get_non_academic_authors_info cfg authors).1
        (gatherNonAcademic cfg authors).1 ∧
      List.Sublist (get_non_academic_authors_info cfg authors).2
        (gatherNonAcademic cfg authors).2 ∧
      (∀ x, x ∈ (get_non_academic_authors_info cfg authors).1 ↔
        x ∈ (gatherNonAcademic cfg authors).1) ∧
      (∀ x, x ∈ (get_non_academic_authors_info cfg authors).2 ↔
        x ∈ (gatherNonAcademic cfg authors).2)) ∧
    (get_non_academic_authors_info fallbackConfig [authorPfizer1, authorPfizer2]).2 =
      ["Pfizer".toList] := by
  constructor
  · intro cfg authors
    exact ⟨dedupExact_nodup _, dedupExact_nodup _, dedupExact_sublist _,
      dedupExact_sublist _, mem_dedupExact _, mem_dedupExact _⟩
  · decide
